import Mathlib

/-!
Shallow embedding of the particle sequence ordering engine of
`src/scripts/train_linformer.py` (the `sort_by` dispatch in `main`, lines
165-184, and `sort_events_by_cluster`, lines 85-133).

Scalars are taken in an arbitrary `LinearOrderedCommRing` (the script works
on numpy floats; the claims under study are order/permutation properties,
so any linearly ordered ring is a faithful carrier and lets witnesses run
on `ℤ`).  The external collaborators are modelled as parameters:
`sqrt` stands for `np.sqrt`, a `Trig` record for `np.cos/sin/sinh/cosh`,
and `cf : α → List (FourVector α) → List (Jet α)` for
`fj.ClusterSequence(ps, fj.JetDefinition(fj.antikt_algorithm, R)).inclusive_jets()`
together with the per-constituent `user_index()` extraction: given the
radius `R` and the event's four-vectors it returns the jets, each carrying
its `perp()` value and the `user_index` list of its constituents in
join order.
-/

namespace LinSort

variable {α : Type} [LinearOrderedCommRing α]

/-- A particle row of the event array: feature slots `0,1,2` are
`(pt, eta, phi)`, the rest is opaque payload carried through reordering. -/
abbrev Row (α : Type) := List α

/-- One event: the list of its particle rows (`n_particles` of them in a
rectangular numpy array). -/
abbrev Event (α : Type) := List (Row α)

/-- Column 0 of a row: `event[:, 0]` (transverse momentum). -/
def pt (r : Row α) : α := r.getD 0 0

/-- Column 1 of a row: `event[:, 1]` (pseudorapidity). -/
def eta (r : Row α) : α := r.getD 1 0

/-- Column 2 of a row: `event[:, 2]` (azimuth). -/
def phi (r : Row α) : α := r.getD 2 0

/-- The `--sort_by` choices of `parse_args`. -/
inductive SortBy
  | pt
  | eta
  | phi
  | delta_R
  | kt
  | cluster
deriving DecidableEq

/-- The per-row scalar key computed in each scalar branch of `main`:
`key = x[:, :, 0]` for `pt`, `x[:, :, 1]` for `eta`, `x[:, :, 2]` for
`phi`, `np.sqrt(x[:,:,1]**2 + x[:,:,2]**2)` for `delta_R` and
`x[:,:,0] * np.sqrt(x[:,:,1]**2 + x[:,:,2]**2)` for `kt`.  The `cluster`
branch computes no key; its value here is an unused placeholder. -/
def sortKey (sb : SortBy) (sqrt : α → α) (r : Row α) : α :=
  match sb with
  | SortBy.pt => pt r
  | SortBy.eta => eta r
  | SortBy.phi => phi r
  | SortBy.delta_R => sqrt (eta r ^ 2 + phi r ^ 2)
  | SortBy.kt => pt r * sqrt (eta r ^ 2 + phi r ^ 2)
  | SortBy.cluster => 0

/-- Comparison used to model `np.argsort` on one event's key vector:
ascending keys, with ties resolved by slot position ascending as one
deterministic refinement.  numpy's default `kind='quicksort'` guarantees
only the ascending key order, not a tie order (it is insertion sort, hence
stable, only below its small-array cutoff), so statements about the
program may rely on this tie choice only on rows small enough for that
cutoff — here, the 2-particle concrete counterexamples. -/
def argRel (keys : List α) (i j : Nat) : Prop :=
  keys.getD i 0 < keys.getD j 0 ∨ (keys.getD i 0 = keys.getD j 0 ∧ i ≤ j)

instance argRelDecidable (keys : List α) : DecidableRel (argRel keys) := fun i j =>
  inferInstanceAs
    (Decidable (keys.getD i 0 < keys.getD j 0 ∨ (keys.getD i 0 = keys.getD j 0 ∧ i ≤ j)))

/-- Models `np.argsort(key, axis=1)` for one event: the slot indices
arranged so that their keys are ascending, ties refined per `argRel`. -/
def argsortAsc (keys : List α) : List Nat :=
  List.insertionSort (argRel keys) (List.range keys.length)

/-- Models `np.argsort(key, axis=1)[:, ::-1]` for one event: the ascending
argsort, reversed. -/
def scalarPerm (sb : SortBy) (sqrt : α → α) (e : Event α) : List Nat :=
  (argsortAsc (e.map (sortKey sb sqrt))).reverse

/-- Models `np.take_along_axis(x, sort_idx[:, :, None], axis=1)` for one
event, and likewise `event[sorted_indices]`: pick whole rows at the listed
positions. -/
def applyPerm (e : Event α) (p : List Nat) : Event α :=
  p.map (fun i => e.getD i [])

/-- The four-vector built in `sort_events_by_cluster`:
`px = pt*cos(phi)`, `py = pt*sin(phi)`, `pz = pt*sinh(eta)`,
`E = pt*cosh(eta)`. -/
structure FourVector (α : Type) where
  px : α
  py : α
  pz : α
  E : α

/-- The transcendental functions used to build four-vectors, supplied by
numpy; kept abstract. -/
structure Trig (α : Type) where
  cos : α → α
  sin : α → α
  sinh : α → α
  cosh : α → α

/-- The `ps` list of `sort_events_by_cluster`: one four-vector per particle
slot; `set_user_index(j)` tags slot `j`, so jets refer to slots by these
positions. -/
def buildFourVectors (t : Trig α) (e : Event α) : List (FourVector α) :=
  e.map (fun r =>
    ⟨pt r * t.cos (phi r), pt r * t.sin (phi r),
     pt r * t.sinh (eta r), pt r * t.cosh (eta r)⟩)

/-- A jet as seen by the script: its `perp()` and the `user_index()` list
of its constituents in the order `jet.constituents()` yields them. -/
structure Jet (α : Type) where
  perp : α
  members : List Nat

/-- Models `sorted(seq.inclusive_jets(), key=lambda jet: jet.perp(),
reverse=True)`: Python's `sorted` with `reverse=True` is the stable
descending sort — jets of equal `perp` keep their order in the clusterer's
output. -/
def sortJets (jets : List (Jet α)) : List (Jet α) :=
  List.insertionSort (fun a b => b.perp ≤ a.perp) jets

/-- Lines 117-131 of `sort_events_by_cluster`: walk the sorted jets,
collecting each jet's constituent indices in join order, then append
`remaining = [idx for idx in range(n_particles) if idx not in sorted_indices]`. -/
def assembleIndices (jets : List (Jet α)) (n : Nat) : List Nat :=
  let fromJets := ((sortJets jets).map Jet.members).flatten
  fromJets ++ (List.range n).filter (fun i => decide (¬ i ∈ fromJets))

/-- The per-event cluster permutation, including the effect of
`sorted_x[start + i] = event[sorted_indices]`: numpy raises an
`IndexError` if some index is out of bounds and a broadcast `ValueError`
if the fancy-indexed row count differs from `n_particles`; otherwise the
assembled index list is the applied permutation. -/
def clusterPerm (t : Trig α) (cf : α → List (FourVector α) → List (Jet α)) (R : α)
    (e : Event α) : Except String (List Nat) :=
  let idxs := assembleIndices (cf R (buildFourVectors t e)) e.length
  if idxs.length = e.length ∧ ∀ i ∈ idxs, i < e.length then Except.ok idxs
  else Except.error "fancy indexing shape or bounds mismatch"

/-- The permutation the engine produces for one event under each
`--sort_by` selector. -/
def eventPerm (sb : SortBy) (sqrt : α → α) (t : Trig α)
    (cf : α → List (FourVector α) → List (Jet α)) (R : α) (e : Event α) :
    Except String (List Nat) :=
  match sb with
  | SortBy.cluster => clusterPerm t cf R e
  | _ => Except.ok (scalarPerm sb sqrt e)

/-- One event of the cluster path: compute the permutation, apply it to
the event's rows. -/
def clusterEvent (t : Trig α) (cf : α → List (FourVector α) → List (Jet α)) (R : α)
    (e : Event α) : Except String (Event α) :=
  match clusterPerm t cf R e with
  | Except.error m => Except.error m
  | Except.ok p => Except.ok (applyPerm e p)

/-- Models `np.zeros_like(x)` for one event: same shape, all entries zero. -/
def zeroEvent (e : Event α) : Event α :=
  e.map (fun r => r.map (fun _ => 0))

/-- The body of one chunk of `for start in range(0, n_events, batch_size)`:
the event indices `start, ..., end-1` with `end = min(start + batch_size,
n_events)`, for the chunk starting at `c * batch_size`. -/
def chunkBody (n bn c : Nat) : List Nat :=
  List.range' (c * bn) (min ((c + 1) * bn) n - c * bn)

/-- The event indices visited by `for start in range(0, n_events,
batch_size)` with the inner `for i, event in enumerate(batch)` flattened:
Python's `range` raises a `ValueError` on step `0`, yields nothing on a
negative step (leaving `sorted_x` all zeros), and on a positive step
yields starts `0, b, 2b, ...` below `n_events`. -/
def chunkIndices (n : Nat) (b : Int) : Except String (List Nat) :=
  if b = 0 then Except.error "range arg 3 must not be zero"
  else if b < 0 then Except.ok []
  else Except.ok (((List.range ((n + b.toNat - 1) / b.toNat)).map (chunkBody n b.toNat)).flatten)

/-- Sequentially process the listed event indices, writing each result
into the output array slot (`sorted_x[start + i] = ...`); any per-event
exception aborts the run. -/
def processEvents (pe : Event α → Except String (Event α)) (x : List (Event α)) :
    List (Event α) → List Nat → Except String (List (Event α))
  | out, [] => Except.ok out
  | out, i :: is =>
    match pe (x.getD i []) with
    | Except.error m => Except.error m
    | Except.ok v => processEvents pe x (out.set i v) is

/-- Models `sort_events_by_cluster(x, R, batch_size)`: preallocate
`sorted_x = np.zeros_like(x)`, then walk the chunked event indices,
clustering and reordering each event. -/
def sortEventsByCluster (t : Trig α) (cf : α → List (FourVector α) → List (Jet α))
    (R : α) (b : Int) (x : List (Event α)) : Except String (List (Event α)) :=
  match chunkIndices x.length b with
  | Except.error m => Except.error m
  | Except.ok idxs => processEvents (clusterEvent t cf R) x (x.map zeroEvent) idxs

/-- The `sort_by` dispatch of `main` (lines 165-184): each scalar selector
argsorts its key whole-array and reorders with `take_along_axis`; the
`cluster` selector calls `sort_events_by_cluster`. -/
def sortDispatch (sb : SortBy) (sqrt : α → α) (t : Trig α)
    (cf : α → List (FourVector α) → List (Jet α)) (R : α) (b : Int)
    (x : List (Event α)) : Except String (List (Event α)) :=
  match sb with
  | SortBy.cluster => sortEventsByCluster t cf R b x
  | _ => Except.ok (x.map (fun e => applyPerm e (scalarPerm sb sqrt e)))

/-- Models the way `main` uses the declared `--num_particles`: it only
selects the data file name (`x_train_robust_{num_particles}const_...`);
the sorting itself reads every dimension from the loaded array `x`, so
the declared value never reaches the engine. -/
def mainSort (numParticles : Nat) (sb : SortBy) (sqrt : α → α) (t : Trig α)
    (cf : α → List (FourVector α) → List (Jet α)) (R : α) (b : Int)
    (x : List (Event α)) : Except String (List (Event α)) :=
  sortDispatch sb sqrt t cf R b x

/-- The ordering the specification prescribes for a scalar-sort
permutation: keys descending, ties broken by original slot index
ascending.  Written from the spec's words, to be compared with the
behaviour of `scalarPerm`. -/
def specStableDescPerm (keys : List α) (p : List Nat) : Prop :=
  ∀ b : Nat, b < p.length → ∀ a : Nat, a < b →
    keys.getD (p.getD b 0) 0 < keys.getD (p.getD a 0) 0 ∨
      (keys.getD (p.getD a 0) 0 = keys.getD (p.getD b 0) 0 ∧ p.getD a 0 < p.getD b 0)

instance specStableDescPermDecidable (keys : List α) (p : List Nat) :
    Decidable (specStableDescPerm keys p) := by
  unfold specStableDescPerm
  infer_instance

/-- The jet ordering the specification prescribes: `perp` descending,
ties broken by the jet's first-constituent original index ascending.
Written from the spec's words, to be compared with `sortJets`. -/
def sortJetsSpec (jets : List (Jet α)) : List (Jet α) :=
  List.insertionSort
    (fun a b => b.perp < a.perp ∨ (a.perp = b.perp ∧ a.members.getD 0 0 ≤ b.members.getD 0 0))
    jets

/-! Basic facts about the stable argsort -/

theorem argRel_total (keys : List α) (i j : Nat) : argRel keys i j ∨ argRel keys j i := by
  unfold argRel
  rcases lt_trichotomy (keys.getD i 0) (keys.getD j 0) with h | h | h
  · exact Or.inl (Or.inl h)
  · rcases Nat.le_total i j with hij | hij
    · exact Or.inl (Or.inr ⟨h, hij⟩)
    · exact Or.inr (Or.inr ⟨h.symm, hij⟩)
  · exact Or.inr (Or.inl h)

theorem argRel_trans (keys : List α) (i j k : Nat) :
    argRel keys i j → argRel keys j k → argRel keys i k := by
  unfold argRel
  rintro (h1 | ⟨h1, h1a⟩) (h2 | ⟨h2, h2a⟩)
  · exact Or.inl (h1.trans h2)
  · exact Or.inl (lt_of_lt_of_eq h1 h2)
  · exact Or.inl (lt_of_eq_of_lt h1 h2)
  · exact Or.inr ⟨h1.trans h2, h1a.trans h2a⟩

theorem argRel_antisymm (keys : List α) (i j : Nat) :
    argRel keys i j → argRel keys j i → i = j := by
  unfold argRel
  rintro (h1 | ⟨h1, h1a⟩) (h2 | ⟨h2, h2a⟩)
  · exact absurd (h1.trans h2) (lt_irrefl _)
  · exact absurd (lt_of_lt_of_eq h1 h2) (lt_irrefl _)
  · exact absurd (lt_of_eq_of_lt h1 h2) (lt_irrefl _)
  · exact Nat.le_antisymm h1a h2a

theorem argsortAsc_perm (keys : List α) :
    (argsortAsc keys).Perm (List.range keys.length) :=
  List.perm_insertionSort _ _

theorem argsortAsc_sorted (keys : List α) :
    (argsortAsc keys).Pairwise (argRel keys) := by
  haveI : IsTotal Nat (argRel keys) := ⟨argRel_total keys⟩
  haveI : IsTrans Nat (argRel keys) := ⟨argRel_trans keys⟩
  exact List.sorted_insertionSort _ _

theorem argsortAsc_nodup (keys : List α) : (argsortAsc keys).Nodup :=
  (argsortAsc_perm keys).symm.nodup (List.nodup_range _)

theorem scalarPerm_perm (sb : SortBy) (sqrt : α → α) (e : Event α) :
    (scalarPerm sb sqrt e).Perm (List.range e.length) := by
  unfold scalarPerm
  have h := (List.reverse_perm (argsortAsc (e.map (sortKey sb sqrt)))).trans
    (argsortAsc_perm (e.map (sortKey sb sqrt)))
  rwa [List.length_map] at h

/-! Basic facts about the assembled cluster permutation -/

theorem assembleIndices_perm (jets : List (Jet α)) (n : Nat)
    (h : (assembleIndices jets n).length = n) :
    (assembleIndices jets n).Perm (List.range n) := by
  have hsub : List.range n ⊆ assembleIndices jets n := by
    intro i hi
    unfold assembleIndices
    by_cases hmem : i ∈ ((sortJets jets).map Jet.members).flatten
    · exact List.mem_append_left _ hmem
    · refine List.mem_append_right _ ?_
      refine List.mem_filter.2 ⟨hi, ?_⟩
      simpa using hmem
  have hsp : List.Subperm (List.range n) (assembleIndices jets n) :=
    (List.nodup_range n).subperm hsub
  exact (hsp.perm_of_length_le (by rw [h, List.length_range])).symm

/-- Claim C1: for every event and every selector (the five scalar-key sorts
and cluster), the permutation produced for that event is a bijection over
`[0, n_particles)` — every original particle index appears exactly once. -/
theorem eventPerm_bijection (sb : SortBy) (sqrt : α → α) (t : Trig α)
    (cf : α → List (FourVector α) → List (Jet α)) (R : α) (e : Event α)
    (p : List Nat) (h : eventPerm sb sqrt t cf R e = Except.ok p) :
    p.Perm (List.range e.length) ∧ ∀ i, i < e.length → p.count i = 1 := by
  have hperm : p.Perm (List.range e.length) := by
    cases sb <;> simp only [eventPerm] at h
    case pt => exact (Except.ok.inj h) ▸ scalarPerm_perm _ _ _
    case eta => exact (Except.ok.inj h) ▸ scalarPerm_perm _ _ _
    case phi => exact (Except.ok.inj h) ▸ scalarPerm_perm _ _ _
    case delta_R => exact (Except.ok.inj h) ▸ scalarPerm_perm _ _ _
    case kt => exact (Except.ok.inj h) ▸ scalarPerm_perm _ _ _
    case cluster =>
      simp only [clusterPerm] at h
      split at h
      · rename_i hcond
        cases h
        exact assembleIndices_perm _ _ hcond.1
      · exact Except.noConfusion h
  refine ⟨hperm, fun i hi => ?_⟩
  rw [hperm.count_eq]
  exact List.count_eq_one_of_mem (List.nodup_range _) (List.mem_range.2 hi)

/-! Concrete values used by witnesses and counterexamples -/

/-- A stand-in for `np.sqrt` on the integer carrier (the scalar-sort claims
do not depend on any property of the square root). -/
def sqrtId : ℤ → ℤ := fun a => a

/-- Concrete transcendental-function record for witnesses. -/
def trig0 : Trig ℤ := ⟨fun _ => 1, fun _ => 0, fun a => a, fun _ => 1⟩

/-- A well-behaved stand-in clusterer: one jet holding every slot in order. -/
def cfAll : ℤ → List (FourVector ℤ) → List (Jet ℤ) := fun _ ps =>
  [⟨1, List.range ps.length⟩]

/-- A clusterer stand-in whose only jet lists slot 0 twice. -/
def cfDup : ℤ → List (FourVector ℤ) → List (Jet ℤ) := fun _ _ => [⟨1, [0, 0]⟩]

/-- The spec's worked example: a 3-particle event with `pt = [5, 2, 8]`. -/
def ev3 : Event ℤ := [[5, 0, 0], [2, 0, 0], [8, 0, 0]]

/-- A 2-particle event whose two particles have equal `pt`. -/
def ev55 : Event ℤ := [[5, 0, 0], [5, 0, 0]]

/-- A single-event array with two particles. -/
def x1 : List (Event ℤ) := [[[5, 1, 2], [3, 0, 1]]]

/-- A single-event array holding the spec's 3-particle example event. -/
def x3 : List (Event ℤ) := [ev3]

/-- Claim C1 witness: the spec's own example — selector `pt`, keys
`[5, 2, 8]` — yields the permutation `[2, 0, 1]`, a bijection on `[0, 3)`. -/
theorem eventPerm_bijection_witness :
    ([2, 0, 1] : List Nat).Perm (List.range 3) ∧
      ∀ i, i < 3 → ([2, 0, 1] : List Nat).count i = 1 :=
  eventPerm_bijection SortBy.pt sqrtId trig0 cfAll 1 ev3 [2, 0, 1] (by rfl)

/-! Claim C2: order of a scalar-sort permutation -/

theorem scalarPerm_pairwise_aux (sb : SortBy) (sqrt : α → α) (e : Event α) :
    (scalarPerm sb sqrt e).Pairwise (fun i j =>
      (e.map (sortKey sb sqrt)).getD j 0 < (e.map (sortKey sb sqrt)).getD i 0 ∨
        ((e.map (sortKey sb sqrt)).getD i 0 = (e.map (sortKey sb sqrt)).getD j 0 ∧ j < i)) := by
  set keys := e.map (sortKey sb sqrt) with hkeys
  have hs : (argsortAsc keys).Pairwise (argRel keys) := argsortAsc_sorted keys
  have hn : (argsortAsc keys).Pairwise (fun i j => i ≠ j) := argsortAsc_nodup keys
  have hall := hs.and hn
  have hrev : (scalarPerm sb sqrt e).Pairwise
      (fun i j => argRel keys j i ∧ j ≠ i) := by
    unfold scalarPerm
    rw [← hkeys]
    exact (List.pairwise_reverse).2 hall
  refine hrev.imp ?_
  intro i j hij
  rcases hij with ⟨h | ⟨h, hle⟩, hne⟩
  · exact Or.inl h
  · exact Or.inr ⟨h.symm, lt_of_le_of_ne hle hne⟩

/-- Claim C2 (amended): every scalar-key permutation orders slots by key
descending — `key(p_a) ≥ key(p_b)` whenever position `a` precedes position
`b` — but two particles with equal keys do NOT in general retain their
original relative order: the `[:, ::-1]` reversal flips whatever tie order
the ascending argsort produced, and numpy guarantees no tie order on larger
rows, so only this tie-agnostic descending property holds of the program
(see the counterexample for the tie behaviour at a size where numpy is
genuinely stable). -/
theorem scalarPerm_key_descending (sb : SortBy) (sqrt : α → α) (e : Event α)
    (hsb : sb ≠ SortBy.cluster) :
    (scalarPerm sb sqrt e).Pairwise (fun i j =>
      (e.map (sortKey sb sqrt)).getD j 0 ≤ (e.map (sortKey sb sqrt)).getD i 0) := by
  refine (scalarPerm_pairwise_aux sb sqrt e).imp ?_
  intro i j h
  rcases h with h | ⟨h, -⟩
  · exact le_of_lt h
  · exact le_of_eq h.symm

/-- Claim C2 witness: on the spec's example event (keys `[5, 2, 8]`) the
permutation `[2, 0, 1]` carries the keys in descending order. -/
theorem scalarPerm_key_descending_witness :
    (scalarPerm SortBy.pt sqrtId ev3).Pairwise (fun i j =>
      (ev3.map (sortKey SortBy.pt sqrtId)).getD j 0 ≤
        (ev3.map (sortKey SortBy.pt sqrtId)).getD i 0) :=
  scalarPerm_key_descending SortBy.pt sqrtId ev3 (by decide)

/-- Claim C2 counterexample: on a 2-particle event with equal `pt` keys the
produced permutation is `[1, 0]`, so the two equal-key particles do NOT
retain their original relative order — the claimed descending-with-ascending-
ties ordering fails. -/
theorem scalarPerm_not_spec_stable :
    scalarPerm SortBy.pt sqrtId ev55 = [1, 0] ∧
      ¬ specStableDescPerm (ev55.map (sortKey SortBy.pt sqrtId))
          (scalarPerm SortBy.pt sqrtId ev55) := by
  constructor
  · rfl
  · decide

/-! Claim C3: idempotence of the scalar sorts -/

theorem getD_map_of_lt {β γ : Type} (f : β → γ) (l : List β) (k : Nat)
    (hk : k < l.length) (d : β) (dg : γ) :
    (l.map f).getD k dg = f (l.getD k d) := by
  have hk2 : k < (l.map f).length := by rw [List.length_map]; exact hk
  rw [List.getD_eq_getElem _ _ hk2, List.getD_eq_getElem _ _ hk, List.getElem_map]

theorem sortKey_getD (sb : SortBy) (sqrt : α → α) (e : Event α) (i : Nat)
    (hi : i < e.length) :
    (e.map (sortKey sb sqrt)).getD i 0 = sortKey sb sqrt (e.getD i []) :=
  getD_map_of_lt _ _ _ hi _ _

theorem applyPerm_length (e : Event α) (p : List Nat) :
    (applyPerm e p).length = p.length := by
  unfold applyPerm
  exact List.length_map _ _

theorem applyPerm_getD (e : Event α) (p : List Nat) (k : Nat) (hk : k < p.length) :
    (applyPerm e p).getD k [] = e.getD (p.getD k 0) [] := by
  unfold applyPerm
  exact getD_map_of_lt (fun i => e.getD i []) p k hk 0 []

/-- Claim C3 (amended): recomputing a scalar-key permutation on an event
already sorted by that key yields the identity permutation PROVIDED the
event's keys are pairwise distinct; with ties the reversal of the ascending
argsort makes the second pass reverse the tied block again (see the
counterexample). -/
theorem scalarPerm_idempotent_of_nodup_keys (sb : SortBy) (sqrt : α → α)
    (e : Event α) (hsb : sb ≠ SortBy.cluster)
    (hk : (e.map (sortKey sb sqrt)).Nodup) :
    scalarPerm sb sqrt (applyPerm e (scalarPerm sb sqrt e)) = List.range e.length := by
  set keys := e.map (sortKey sb sqrt) with hkeys
  set p := scalarPerm sb sqrt e with hp
  have hperm : p.Perm (List.range e.length) := scalarPerm_perm sb sqrt e
  have hplen : p.length = e.length := by rw [hperm.length_eq, List.length_range]
  have hpmem : ∀ i ∈ p, i < e.length := fun i hi => List.mem_range.1 (hperm.subset hi)
  have hklen : keys.length = e.length := by rw [hkeys, List.length_map]
  set e2 := applyPerm e p with he2
  set keys2 := e2.map (sortKey sb sqrt) with hkeys2
  have hk2len : keys2.length = e.length := by
    rw [hkeys2, List.length_map, he2, applyPerm_length, hplen]
  have hpair := scalarPerm_pairwise_aux sb sqrt e
  rw [← hp, ← hkeys] at hpair
  have hstrict : p.Pairwise (fun i j => keys.getD j 0 < keys.getD i 0) := by
    refine hpair.imp_of_mem ?_
    intro i j hi hj hij
    rcases hij with h | ⟨h, hji⟩
    · exact h
    · exfalso
      have hi2 : i < keys.length := by rw [hklen]; exact hpmem i hi
      have hj2 : j < keys.length := by rw [hklen]; exact hpmem j hj
      have hgi : keys.getD i 0 = keys[i] := List.getD_eq_getElem _ _ hi2
      have hgj : keys.getD j 0 = keys[j] := List.getD_eq_getElem _ _ hj2
      have hne := List.pairwise_iff_getElem.1 hk j i hj2 hi2 hji
      exact hne (hgj.symm.trans (h.symm.trans hgi))
  have hkeys2eq : keys2 = p.map (fun i => sortKey sb sqrt (e.getD i [])) := by
    rw [hkeys2, he2]
    unfold applyPerm
    rw [List.map_map]
    rfl
  have hkeys2desc : keys2.Pairwise (fun a b => b < a) := by
    rw [hkeys2eq, List.pairwise_map]
    refine hstrict.imp_of_mem ?_
    intro i j hi hj hij
    rw [← sortKey_getD sb sqrt e i (hpmem i hi), ← sortKey_getD sb sqrt e j (hpmem j hj),
      ← hkeys]
    exact hij
  have hsorted2 : (argsortAsc keys2).Pairwise (argRel keys2) := argsortAsc_sorted keys2
  have hperm2 : (argsortAsc keys2).Perm (List.range e.length) := by
    have h := argsortAsc_perm keys2
    rwa [hk2len] at h
  have hrevsorted : ((List.range e.length).reverse).Pairwise (argRel keys2) := by
    rw [List.pairwise_reverse]
    refine (List.pairwise_lt_range e.length).imp_of_mem ?_
    intro a b ha hb hab
    have ha2 : a < keys2.length := by rw [hk2len]; exact List.mem_range.1 ha
    have hb2 : b < keys2.length := by rw [hk2len]; exact List.mem_range.1 hb
    have hba := List.pairwise_iff_getElem.1 hkeys2desc a b ha2 hb2 hab
    unfold argRel
    left
    rw [List.getD_eq_getElem _ _ ha2, List.getD_eq_getElem _ _ hb2]
    exact hba
  haveI : IsAntisymm Nat (argRel keys2) := ⟨argRel_antisymm keys2⟩
  have heq : argsortAsc keys2 = (List.range e.length).reverse :=
    List.eq_of_perm_of_sorted (hperm2.trans (List.reverse_perm _).symm) hsorted2 hrevsorted
  show (argsortAsc keys2).reverse = List.range e.length
  rw [heq, List.reverse_reverse]

/-- Claim C3 witness: on the spec's example event (keys `[5, 2, 8]`, all
distinct) the second pass is the identity permutation `[0, 1, 2]`. -/
theorem scalarPerm_idempotent_witness :
    scalarPerm SortBy.pt sqrtId (applyPerm ev3 (scalarPerm SortBy.pt sqrtId ev3)) =
      List.range 3 :=
  scalarPerm_idempotent_of_nodup_keys SortBy.pt sqrtId ev3 (by decide) (by decide)

/-- Claim C3 counterexample: on the equal-keys event the first pass yields
`[1, 0]` and the second pass yields `[1, 0]` again — not the identity — so
scalar sorting is not idempotent in the presence of ties. -/
theorem scalarPerm_not_idempotent :
    scalarPerm SortBy.pt sqrtId (applyPerm ev55 (scalarPerm SortBy.pt sqrtId ev55)) = [1, 0] ∧
      scalarPerm SortBy.pt sqrtId (applyPerm ev55 (scalarPerm SortBy.pt sqrtId ev55)) ≠
        List.range 2 := by
  constructor
  · rfl
  · decide

/-! The chunk loop -/

theorem chunkFlatten (n bn : Nat) (k : Nat) :
    ((List.range k).map (chunkBody n bn)).flatten = List.range' 0 (min (k * bn) n) := by
  induction k with
  | zero => simp
  | succ k ih =>
    rw [List.range_succ, List.map_append, List.flatten_append, ih]
    simp only [List.map_cons, List.map_nil, List.flatten_cons, List.flatten_nil,
      List.append_nil]
    show List.range' 0 (min (k * bn) n) ++
        List.range' (k * bn) (min ((k + 1) * bn) n - k * bn) =
      List.range' 0 (min ((k + 1) * bn) n)
    have hmul : k * bn ≤ (k + 1) * bn := Nat.mul_le_mul_right bn (Nat.le_succ k)
    rcases Nat.le_total n (k * bn) with h | h
    · have h1 : min (k * bn) n = n := by omega
      have h3 : min ((k + 1) * bn) n - k * bn = 0 := by omega
      have h2 : min ((k + 1) * bn) n = n := by omega
      rw [h3, h1, h2]
      simp
    · have h1 : min (k * bn) n = k * bn := by omega
      rw [h1]
      have happ := List.range'_append_1 0 (k * bn) (min ((k + 1) * bn) n - k * bn)
      rw [Nat.zero_add] at happ
      rw [happ]
      congr 1
      omega

theorem chunkIndices_pos (n : Nat) (b : Int) (hb : 0 < b) :
    chunkIndices n b = Except.ok (List.range n) := by
  have hb0 : ¬ b = 0 := by omega
  have hb1 : ¬ b < 0 := by omega
  unfold chunkIndices
  rw [if_neg hb0, if_neg hb1]
  congr 1
  have hbn : 0 < b.toNat := by omega
  rw [chunkFlatten n b.toNat ((n + b.toNat - 1) / b.toNat)]
  have hge : n ≤ ((n + b.toNat - 1) / b.toNat) * b.toNat := by
    have hdm := Nat.div_add_mod (n + b.toNat - 1) b.toNat
    have hlt := Nat.mod_lt (n + b.toNat - 1) hbn
    rw [Nat.mul_comm]
    omega
  have hmin : min (((n + b.toNat - 1) / b.toNat) * b.toNat) n = n := by omega
  rw [hmin, ← List.range_eq_range']

/-- Claim C10: for every positive chunk size and every event count, the chunk
loop of the cluster path visits each event index in `[0, num_events)` exactly
once, in order — the final partial chunk is clamped to the array end, so no
event is skipped or processed twice. -/
theorem chunk_covers_each_event_once (n : Nat) (b : Int) (hb : 0 < b) :
    chunkIndices n b = Except.ok (List.range n) ∧
      ∀ i, i < n → (List.range n).count i = 1 :=
  ⟨chunkIndices_pos n b hb, fun i hi =>
    List.count_eq_one_of_mem (List.nodup_range n) (List.mem_range.2 hi)⟩

/-- Claim C10 witness: seven events, chunk size three — the clamped final
chunk still yields `[0, 1, 2, 3, 4, 5, 6]`, each index once. -/
theorem chunk_covers_each_event_once_witness :
    chunkIndices 7 3 = Except.ok (List.range 7) ∧
      ∀ i, i < 7 → (List.range 7).count i = 1 :=
  chunk_covers_each_event_once 7 3 (by decide)

/-! The sequential per-event writes -/

theorem processEvents_ok (pe : Event α → Except String (Event α)) (x : List (Event α))
    (idxs : List Nat) :
    ∀ out res : List (Event α), idxs.Nodup → (∀ i ∈ idxs, i < out.length) →
      processEvents pe x out idxs = Except.ok res →
      res.length = out.length ∧
        (∀ i, i ∉ idxs → res.getD i [] = out.getD i []) ∧
        ∀ i ∈ idxs, ∃ v, pe (x.getD i []) = Except.ok v ∧ res.getD i [] = v := by
  induction idxs with
  | nil =>
    intro out res _ _ h
    simp only [processEvents] at h
    cases h
    exact ⟨rfl, fun i _ => rfl, fun i hi => absurd hi (List.not_mem_nil i)⟩
  | cons i is ih =>
    intro out res hnd hbd h
    simp only [processEvents] at h
    cases hpe : pe (x.getD i []) with
    | error m => rw [hpe] at h; exact Except.noConfusion h
    | ok v =>
      rw [hpe] at h
      have hnd2 := List.nodup_cons.1 hnd
      have hbd2 : ∀ j ∈ is, j < (out.set i v).length := by
        intro j hj
        rw [List.length_set]
        exact hbd j (List.mem_cons_of_mem i hj)
      obtain ⟨hlen, hout, hin⟩ := ih (out.set i v) res hnd2.2 hbd2 h
      have hilen : i < out.length := hbd i (List.mem_cons_self i is)
      refine ⟨by rw [hlen, List.length_set], ?_, ?_⟩
      · intro j hj
        have hji : j ≠ i := fun hc => hj (hc ▸ List.mem_cons_self i is)
        have hjis : j ∉ is := fun hc => hj (List.mem_cons_of_mem i hc)
        rw [hout j hjis, List.getD_eq_getElem?_getD, List.getD_eq_getElem?_getD,
          List.getElem?_set_ne hji.symm]
      · intro j hj
        rcases List.mem_cons.1 hj with rfl | hjis
        · refine ⟨v, hpe, ?_⟩
          rw [hout j hnd2.1, List.getD_eq_getElem?_getD,
            List.getElem?_set_self hilen]
          rfl
        · exact hin j hjis

/-! Claim C4: duplicate jet membership is fatal -/

theorem clusterPerm_dup_error (t : Trig α) (cf : α → List (FourVector α) → List (Jet α))
    (R : α) (e : Event α)
    (hdup : ¬ ((cf R (buildFourVectors t e)).map Jet.members).flatten.Nodup) :
    ∀ p, clusterPerm t cf R e ≠ Except.ok p := by
  intro p hok
  simp only [clusterPerm] at hok
  split at hok
  case isTrue hcond =>
    have hperm := assembleIndices_perm (cf R (buildFourVectors t e)) e.length hcond.1
    have hnd : (assembleIndices (cf R (buildFourVectors t e)) e.length).Nodup :=
      hperm.symm.nodup (List.nodup_range _)
    have hnd2 : (((sortJets (cf R (buildFourVectors t e))).map Jet.members).flatten ++
        (List.range e.length).filter
          (fun i => decide
            (¬ i ∈ ((sortJets (cf R (buildFourVectors t e))).map Jet.members).flatten))).Nodup :=
      hnd
    have hfl : ((sortJets (cf R (buildFourVectors t e))).map Jet.members).flatten.Nodup :=
      List.Nodup.sublist (List.sublist_append_left _ _) hnd2
    have hsp : (sortJets (cf R (buildFourVectors t e))).Perm (cf R (buildFourVectors t e)) :=
      List.perm_insertionSort _ _
    exact hdup (((hsp.map Jet.members).flatten).nodup hfl)
  case isFalse => exact Except.noConfusion hok

/-- Claim C4: if, for some event covered by the chunk loop, the clusterer's
jets contribute the same original particle index more than once, the run
fails with an exception — the fancy-index assignment row count can no longer
match `n_particles` — so the duplicate is never silently dropped or
deduplicated and no output array is produced. -/
theorem cluster_dup_fatal (t : Trig α) (cf : α → List (FourVector α) → List (Jet α))
    (R : α) (b : Int) (x : List (Event α)) (e : Nat) (hb : 0 < b) (he : e < x.length)
    (hdup : ¬ ((cf R (buildFourVectors t (x.getD e []))).map Jet.members).flatten.Nodup) :
    ∀ out, sortEventsByCluster t cf R b x ≠ Except.ok out := by
  intro out hok
  unfold sortEventsByCluster at hok
  rw [chunkIndices_pos x.length b hb] at hok
  have hbd : ∀ i ∈ List.range x.length, i < (x.map zeroEvent).length := by
    intro i hi
    rw [List.length_map]
    exact List.mem_range.1 hi
  obtain ⟨-, -, hin⟩ := processEvents_ok (clusterEvent t cf R) x (List.range x.length)
    (x.map zeroEvent) out (List.nodup_range _) hbd hok
  obtain ⟨v, hv, -⟩ := hin e (List.mem_range.2 he)
  unfold clusterEvent at hv
  cases hcp : clusterPerm t cf R (x.getD e []) with
  | error m => rw [hcp] at hv; exact Except.noConfusion hv
  | ok q => exact clusterPerm_dup_error t cf R (x.getD e []) hdup q hcp

/-- Claim C4 witness: a clusterer whose only jet lists slot 0 twice on a
2-particle event — the run rejects the all-zero candidate output (and every
other output). -/
theorem cluster_dup_fatal_witness :
    sortEventsByCluster trig0 cfDup 1 1 x1 ≠ Except.ok (x1.map zeroEvent) :=
  cluster_dup_fatal trig0 cfDup 1 1 x1 0 (by decide) (by decide) (by decide)
    (x1.map zeroEvent)

/-! Claim C7: the chunk size has no effect on results -/

/-- Claim C7: for every input array, selector and pair of positive chunk
sizes, the produced output is identical — chunking only bounds memory. -/
theorem chunk_size_irrelevant (sb : SortBy) (sqrt : α → α) (t : Trig α)
    (cf : α → List (FourVector α) → List (Jet α)) (R : α) (b1 b2 : Int)
    (x : List (Event α)) (h1 : 0 < b1) (h2 : 0 < b2) :
    sortDispatch sb sqrt t cf R b1 x = sortDispatch sb sqrt t cf R b2 x := by
  cases sb
  case cluster =>
    simp only [sortDispatch]
    unfold sortEventsByCluster
    rw [chunkIndices_pos x.length b1 h1, chunkIndices_pos x.length b2 h2]
  all_goals rfl

/-- Claim C7 witness: chunk size 1 versus chunk size 2 (= the event count
rounded up) on the concrete array agree. -/
theorem chunk_size_irrelevant_witness :
    sortDispatch SortBy.cluster sqrtId trig0 cfAll 1 1 x1 =
      sortDispatch SortBy.cluster sqrtId trig0 cfAll 1 2 x1 :=
  chunk_size_irrelevant SortBy.cluster sqrtId trig0 cfAll 1 1 2 x1 (by decide) (by decide)

/-! Claim C6: no validation of R or chunk size -/

/-- Claim C6 (amended): there is no startup validation of `R` or of the
chunk size.  A chunk size of `0` only fails when the chunk loop itself
evaluates `range(0, n_events, 0)`; a NEGATIVE chunk size makes the loop body
run zero times, so the run silently returns the preallocated all-zero output
array; `R ≤ 0` is passed through to the clusterer unchecked. -/
theorem no_startup_validation (t : Trig α) (cf : α → List (FourVector α) → List (Jet α))
    (R : α) (b : Int) (x : List (Event α)) :
    (b = 0 → ∀ out, sortEventsByCluster t cf R b x ≠ Except.ok out) ∧
      (b < 0 → sortEventsByCluster t cf R b x = Except.ok (x.map zeroEvent)) := by
  constructor
  · rintro rfl out h
    unfold sortEventsByCluster chunkIndices at h
    simp at h
  · intro hb
    unfold sortEventsByCluster chunkIndices
    rw [if_neg (by omega : ¬ b = 0), if_pos hb]
    rfl

/-- Claim C6 counterexample: chunk size `-1` together with radius `R = -1`
raises no configuration error at all — the run returns the all-zero array,
which the claim says must never happen silently. -/
theorem negative_chunk_silent_zeros :
    sortEventsByCluster trig0 cfAll (-1) (-1) x1 = Except.ok (x1.map zeroEvent) ∧
      x1.map zeroEvent ≠ x1 :=
  ⟨rfl, by decide⟩

/-- Claim C6 witness (for the amended statement): chunk size `-2` returns
the zero array without an error. -/
theorem no_startup_validation_witness :
    sortEventsByCluster trig0 cfAll 1 (-2) x1 = Except.ok (x1.map zeroEvent) :=
  (no_startup_validation trig0 cfAll 1 (-2) x1).2 (by decide)

/-! Claim C5: the declared particle count is never validated -/

/-- Claim C5 (amended): the engine never compares the declared
`num_particles` with the loaded array's second dimension — in the source the
declared value only selects the data file name, and every dimension used by
the sorting is read from the array itself — so a mismatched run proceeds
with no data-validation error. -/
theorem declared_count_unchecked (np : Nat) (sb : SortBy) (sqrt : α → α)
    (t : Trig α) (cf : α → List (FourVector α) → List (Jet α)) (R : α) (b : Int)
    (x : List (Event α)) (hsb : sb ≠ SortBy.cluster)
    (hmis : np ≠ (x.getD 0 []).length) :
    mainSort np sb sqrt t cf R b x =
      Except.ok (x.map (fun e => applyPerm e (scalarPerm sb sqrt e))) := by
  cases sb
  case cluster => exact absurd rfl hsb
  all_goals rfl

/-- Claim C5 counterexample: declared `num_particles = 2` while the loaded
array's second dimension is `3` — no error whose message reports expected
versus actual is raised; the run completes and produces output. -/
theorem mismatch_no_error :
    (x3.getD 0 []).length = 3 ∧ (2 : Nat) ≠ 3 ∧
      mainSort 2 SortBy.pt sqrtId trig0 cfAll 1 1 x3 =
        Except.ok [[[8, 0, 0], [5, 0, 0], [2, 0, 0]]] :=
  ⟨rfl, by decide, rfl⟩

/-- Claim C5 witness (for the amended statement). -/
theorem declared_count_unchecked_witness :
    mainSort 2 SortBy.pt sqrtId trig0 cfAll 1 1 x3 =
      Except.ok (x3.map (fun e => applyPerm e (scalarPerm SortBy.pt sqrtId e))) :=
  declared_count_unchecked 2 SortBy.pt sqrtId trig0 cfAll 1 1 x3 (by decide) (by decide)

/-! Claim C8: jet ordering and leftover placement -/

theorem sortJets_sorted (jets : List (Jet α)) :
    (sortJets jets).Pairwise (fun a b => b.perp ≤ a.perp) := by
  haveI : IsTotal (Jet α) (fun a b => b.perp ≤ a.perp) :=
    ⟨fun a b => le_total b.perp a.perp⟩
  haveI : IsTrans (Jet α) (fun a b => b.perp ≤ a.perp) :=
    ⟨fun a b c h1 h2 => le_trans h2 h1⟩
  exact List.sorted_insertionSort _ _

/-- Claim C8 (amended): the assembled order lists jets by `perp` descending
(`perp(jet_k) ≥ perp(jet_k+1)` for consecutive jets), but equal-`perp` jets
are kept in the order the clusterer returned them — Python's `sorted` is
stable and `reverse=True` does not reverse ties — NOT re-ordered by
first-constituent index; any original index in no jet is appended after all
jet constituents in ascending index order. -/
theorem jets_desc_stable_leftovers_asc (jets : List (Jet α)) (n : Nat) :
    (sortJets jets).Pairwise (fun a b => b.perp ≤ a.perp) ∧
      (jets.Pairwise (fun a b => b.perp ≤ a.perp) → sortJets jets = jets) ∧
      ∃ rem : List Nat,
        assembleIndices jets n = ((sortJets jets).map Jet.members).flatten ++ rem ∧
          rem.Pairwise (fun a b => a < b) ∧
          ∀ i : Nat, i ∈ rem ↔
            i < n ∧ i ∉ ((sortJets jets).map Jet.members).flatten := by
  refine ⟨sortJets_sorted jets, ?_, ?_⟩
  · intro hs
    exact List.Sorted.insertionSort_eq hs
  · refine ⟨(List.range n).filter
      (fun i => decide (¬ i ∈ ((sortJets jets).map Jet.members).flatten)), rfl, ?_, ?_⟩
    · exact (List.pairwise_lt_range n).filter _
    · intro i
      rw [List.mem_filter, List.mem_range]
      simp

/-- Two equal-`perp` jets whose first constituents appear in descending
order in the clusterer's output. -/
def jets2 : List (Jet ℤ) := [⟨1, [1]⟩, ⟨1, [0]⟩]

/-- A jet list already descending in `perp`. -/
def jets3 : List (Jet ℤ) := [⟨2, [0]⟩, ⟨1, [1]⟩]

/-- Claim C8 counterexample: on two equal-`perp` jets with first
constituents `1` then `0`, the engine keeps clusterer order — the sorted
jets' first-constituent indices are `[1, 0]`, not ascending — while the
spec's prescribed tie-break would put `[0]` first; the assembled order is
`[1, 0]`. -/
theorem jet_tiebreak_not_first_constituent :
    (sortJets jets2).map Jet.members = [[1], [0]] ∧
      (sortJetsSpec jets2).map Jet.members = [[0], [1]] ∧
      assembleIndices jets2 2 = [1, 0] ∧
      ¬ ((sortJets jets2).map (fun j => j.members.getD 0 0)).Pairwise
          (fun a b => a ≤ b) := by
  refine ⟨rfl, rfl, rfl, ?_⟩
  decide

/-- Claim C8 witness: a concrete descending-`perp` jet list is left in
place, and the sorted list is `perp`-descending. -/
theorem jets_desc_stable_leftovers_asc_witness :
    (sortJets jets3).Pairwise (fun a b => b.perp ≤ a.perp) ∧ sortJets jets3 = jets3 :=
  ⟨(jets_desc_stable_leftovers_asc jets3 2).1,
    (jets_desc_stable_leftovers_asc jets3 2).2.1 (by decide)⟩

/-! Claim C9: reordering moves whole rows and preserves shape -/

theorem applyPerm_spec (ev : Event α) (p : List Nat)
    (hp : p.Perm (List.range ev.length)) :
    (applyPerm ev p).length = ev.length ∧
      ∀ k, k < p.length → (applyPerm ev p).getD k [] = ev.getD (p.getD k 0) [] := by
  constructor
  · rw [applyPerm_length, hp.length_eq, List.length_range]
  · intro k hk
    exact applyPerm_getD ev p k hk

theorem clusterEvent_ok_spec (t : Trig α) (cf : α → List (FourVector α) → List (Jet α))
    (R : α) (e v : Event α) (h : clusterEvent t cf R e = Except.ok v) :
    ∃ p : List Nat, p.Perm (List.range e.length) ∧ v = applyPerm e p := by
  unfold clusterEvent at h
  cases hcp : clusterPerm t cf R e with
  | error m => rw [hcp] at h; exact Except.noConfusion h
  | ok p =>
    rw [hcp] at h
    refine ⟨p, ?_, (Except.ok.inj h).symm⟩
    simp only [clusterPerm] at hcp
    split at hcp
    case isTrue hcond =>
      cases hcp
      exact assembleIndices_perm _ _ hcond.1
    case isFalse => exact Except.noConfusion hcp

theorem scalarArray_spec (sb : SortBy) (sqrt : α → α) (x : List (Event α)) :
    (x.map (fun e => applyPerm e (scalarPerm sb sqrt e))).length = x.length ∧
      ∀ e, e < x.length → ∃ p : List Nat,
        p.Perm (List.range (x.getD e []).length) ∧
        ((x.map (fun e2 => applyPerm e2 (scalarPerm sb sqrt e2))).getD e []).length =
            (x.getD e []).length ∧
        ∀ k, k < p.length →
          ((x.map (fun e2 => applyPerm e2 (scalarPerm sb sqrt e2))).getD e []).getD k [] =
            (x.getD e []).getD (p.getD k 0) [] := by
  refine ⟨List.length_map _ _, ?_⟩
  intro e he
  refine ⟨scalarPerm sb sqrt (x.getD e []), scalarPerm_perm _ _ _, ?_, ?_⟩
  · rw [getD_map_of_lt _ x e he [] []]
    exact (applyPerm_spec _ _ (scalarPerm_perm _ _ _)).1
  · intro k hk
    rw [getD_map_of_lt _ x e he [] []]
    exact (applyPerm_spec _ _ (scalarPerm_perm _ _ _)).2 k hk

/-- Claim C9: reordering only permutes whole particle rows — for every
event of a successful run there is a permutation `p` of `[0, n_particles)`
such that output row `k` equals, field for field (the opaque columns beyond
`pt, eta, phi` included, since rows are moved whole), the input row at
`p k`; and the output array has the same shape as the input. -/
theorem rows_carried_whole (sb : SortBy) (sqrt : α → α) (t : Trig α)
    (cf : α → List (FourVector α) → List (Jet α)) (R : α) (b : Int)
    (x out : List (Event α)) (hb : 0 < b)
    (h : sortDispatch sb sqrt t cf R b x = Except.ok out) :
    out.length = x.length ∧
      ∀ e, e < x.length → ∃ p : List Nat,
        p.Perm (List.range (x.getD e []).length) ∧
        (out.getD e []).length = (x.getD e []).length ∧
        ∀ k, k < p.length →
          (out.getD e []).getD k [] = (x.getD e []).getD (p.getD k 0) [] := by
  cases sb
  case cluster =>
    simp only [sortDispatch] at h
    unfold sortEventsByCluster at h
    rw [chunkIndices_pos x.length b hb] at h
    have hbd : ∀ i ∈ List.range x.length, i < (x.map zeroEvent).length := by
      intro i hi
      rw [List.length_map]
      exact List.mem_range.1 hi
    obtain ⟨hlen, -, hin⟩ := processEvents_ok (clusterEvent t cf R) x
      (List.range x.length) (x.map zeroEvent) out (List.nodup_range _) hbd h
    constructor
    · rw [hlen, List.length_map]
    · intro e he
      obtain ⟨v, hv, hres⟩ := hin e (List.mem_range.2 he)
      obtain ⟨p, hp, rfl⟩ := clusterEvent_ok_spec t cf R (x.getD e []) v hv
      refine ⟨p, hp, ?_, ?_⟩
      · rw [hres]
        exact (applyPerm_spec _ _ hp).1
      · intro k hk
        rw [hres]
        exact (applyPerm_spec _ _ hp).2 k hk
  all_goals
    simp only [sortDispatch] at h
    cases h
    exact scalarArray_spec _ sqrt x

/-- Claim C9 witness: the spec's example array — the output has the input's
shape, and every output row is an input row moved whole. -/
theorem rows_carried_whole_witness :
    ([[[8, 0, 0], [5, 0, 0], [2, 0, 0]]] : List (Event ℤ)).length = x3.length :=
  (rows_carried_whole SortBy.pt sqrtId trig0 cfAll 1 1 x3
    [[[8, 0, 0], [5, 0, 0], [2, 0, 0]]] (by decide) (by rfl)).1

end LinSort
